import Mathlib

/-!
Verification development for the cses-go-runner repository.

The Go sources are shallowly embedded: pure string manipulation becomes
functions on `List Char` / `String`, process execution and HTTP traffic
become explicit outcome parameters, Go maps become association lists with
insert-shadowing lookup, the goroutine/semaphore harness becomes an
explicit write list respectively a small-step transition system, and
`time.Duration` values become `Int` nanosecond counts.
-/

namespace CsesGoRunner

/-! ## String utilities (embedding Go's `strings` / `strconv` helpers) -/

/-- Embedding of Go `unicode.IsSpace` (the cutset of `strings.TrimSpace`):
white space per Unicode, i.e. tab, newline, vertical tab, form feed,
carriage return, space, NEL, NBSP, and the Unicode space separators. -/
def goIsSpace (c : Char) : Bool :=
  let n := c.toNat
  n == 9 || n == 10 || n == 11 || n == 12 || n == 13 || n == 32 ||
  n == 0x85 || n == 0xA0 || n == 0x1680 ||
  (0x2000 ≤ n && n ≤ 0x200A) ||
  n == 0x2028 || n == 0x2029 || n == 0x202F || n == 0x205F || n == 0x3000

/-- The cutset `" \t\r"` of the per-line `strings.TrimRight` call in
`normalizeOutput` (src/unnamed/part_002, line 249). -/
def isCut (c : Char) : Bool :=
  c == ' ' || c == '\t' || c == '\r'

theorem isCut_goIsSpace {c : Char} (h : isCut c = true) : goIsSpace c = true := by
  simp only [isCut, Bool.or_eq_true, beq_iff_eq] at h
  rcases h with (h | h) | h <;> subst h <;> decide

/-- Embedding of Go `strings.TrimRight(s, cutset)`: remove the maximal
trailing run of characters satisfying `p`. -/
def rtrimBy (p : Char → Bool) : List Char → List Char
  | [] => []
  | c :: r =>
    if rtrimBy p r = [] then (if p c then [] else [c]) else c :: rtrimBy p r

/-- Embedding of Go `strings.Split(s, "\n")`: split into the (always
non-empty) list of newline-separated pieces. -/
def splitNl : List Char → List (List Char)
  | [] => [[]]
  | c :: rest =>
    if c = '\n' then [] :: splitNl rest
    else (c :: (splitNl rest).headD []) :: (splitNl rest).tail

/-- Embedding of Go `strings.Join(lines, "\n")`. -/
def joinNl : List (List Char) → List Char
  | [] => []
  | [l] => l
  | l :: l' :: ls => l ++ '\n' :: joinNl (l' :: ls)

/-- Embedding of Go `strings.TrimSpace`: drop leading and trailing
`unicode.IsSpace` characters. -/
def trimSpaceL (l : List Char) : List Char :=
  rtrimBy goIsSpace (l.dropWhile goIsSpace)

/-- The line-wise part of `normalizeOutput`: split on newlines, right-trim
each line with cutset `" \t\r"`, and rejoin with newlines
(src/unnamed/part_002, lines 245-253). -/
def rtrimLines (l : List Char) : List Char :=
  joinNl ((splitNl l).map (rtrimBy isCut))

/-- Character-list level of `TestExecutor.normalizeOutput`
(src/unnamed/part_002, lines 243-255). -/
def normalizeL (l : List Char) : List Char :=
  trimSpaceL (rtrimLines l)

/-- Embedding of `TestExecutor.normalizeOutput`: normalize line endings,
then trim the final result. -/
def normalizeOutput (s : String) : String :=
  String.mk (normalizeL s.data)

/-- Embedding of `TestExecutor.compareOutputs` (src/unnamed/part_002,
lines 235-241): exact equality of the two normalized texts. -/
def compareOutputs (actual expected : String) : Bool :=
  normalizeOutput actual == normalizeOutput expected

/-- `hasPref s p` embeds Go `strings.HasPrefix(s, p)`. -/
def hasPref : List Char → List Char → Bool
  | _, [] => true
  | [], _ :: _ => false
  | c :: s, d :: p => c == d && hasPref s p

/-- `hasSuf s p` embeds Go `strings.HasSuffix(s, p)`. -/
def hasSuf (s p : List Char) : Bool :=
  hasPref s.reverse p.reverse

/-- Embedding of Go `strings.TrimSuffix(s, p)`. -/
def trimSufL (s p : List Char) : List Char :=
  if hasSuf s p then s.take (s.length - p.length) else s

/-- Embedding of Go `strings.TrimPrefix(s, p)`. -/
def trimPrefL (s p : List Char) : List Char :=
  if hasPref s p then s.drop p.length else s

/-- Embedding of Go `strings.Contains(s, sub)`. -/
def goContainsL (s sub : List Char) : Bool :=
  (List.range (s.length + 1)).any fun i => hasPref (s.drop i) sub

/-- String-level `strings.Contains`. -/
def goContains (s sub : String) : Bool :=
  goContainsL s.data sub.data

/-- String-level `strings.HasSuffix`. -/
def goHasSuffix (s p : String) : Bool :=
  hasSuf s.data p.data

/-- String-level `strings.TrimSuffix`. -/
def goTrimSuffix (s p : String) : String :=
  String.mk (trimSufL s.data p.data)

/-- String-level `strings.TrimPrefix`. -/
def goTrimPrefix (s p : String) : String :=
  String.mk (trimPrefL s.data p.data)

/-- Decimal digit run value: `some` of the value when the list is a
non-empty run of ASCII digits, else `none`. -/
def digitsVal (l : List Char) : Option Nat :=
  if l ≠ [] ∧ l.all (·.isDigit) then
    some (l.foldl (fun a c => a * 10 + (c.toNat - 48)) 0)
  else none

/-- Embedding of Go `strconv.Atoi`: optional sign followed by a non-empty
digit run; `none` models the error return. (Machine-word overflow of Go's
`int` is not modelled; every ordinal in play is tiny.) -/
def atoiOpt (s : String) : Option Int :=
  match s.data with
  | '+' :: rest => (digitsVal rest).map Int.ofNat
  | '-' :: rest => (digitsVal rest).map (fun n => -(n : Int))
  | l => (digitsVal l).map Int.ofNat

/-- `n, _ := strconv.Atoi(s)` — Go discards the error and keeps the zero
value on failure (src/unnamed/part_002, line 446). -/
def atoiD (s : String) : Int :=
  (atoiOpt s).getD 0

/-! ## Configuration (src/unnamed/part_002, `Config`, lines 98-110) -/

structure Config where
  FilePath : String
  ProblemID : String
  Timeout : String
  Verbose : Bool
  CacheDir : String
  Parallel : Nat
  ShowDiff : Bool
  MaxOutput : Nat
  Optimize : Bool
  Race : Bool
  ForceAuth : Bool
deriving DecidableEq

def defaultConfig : Config :=
  ⟨"", "", "", false, "", 0, false, 0, false, false, false⟩

/-! ## Test executor (src/unnamed/part_002, lines 153-233) -/

/-- Embedding of `TestCase` (src/unnamed/part_002, lines 269-273). -/
structure TestCase where
  Input : String
  Expected : String
  Number : Int
deriving DecidableEq

/-- Embedding of `TestResult` (src/unnamed/part_002, lines 153-164).
The wall-clock `Duration` and `MemoryUsage` fields are real-time data and
are left out of the embedding. -/
structure TestResult where
  TestNumber : Int
  Passed : Bool
  Error : String
  ActualOutput : String
  ExpectedOutput : String
  InputFile : String
  ExpectedFile : String
  ExitCode : Int
deriving DecidableEq

def zeroTestResult : TestResult :=
  ⟨0, false, "", "", "", "", "", 0⟩

/-- Abstract outcome of one `cmd.Run()` of the compiled solution:
either the child completed normally (exit 0, no context error, with the
captured stdout), or it failed — with its exit code, captured stderr, and
whether the per-case deadline had fired (`ctx.Err() == DeadlineExceeded`). -/
inductive ProcOutcome where
  | completed (stdout : String)
  | failed (exitCode : Int) (stderrTxt : String) (timedOut : Bool)
deriving DecidableEq

/-- Embedding of `TestExecutor.runGoProgram` (src/unnamed/part_002, lines
205-233): returns (stdout, exitCode, optional error message); every error
path returns an empty stdout. -/
def runGoProgram (cfg : Config) (o : ProcOutcome) : String × Int × Option String :=
  match o with
  | .completed out => (out, 0, none)
  | .failed code errTxt timedOut =>
    if timedOut then
      ("", code, some ("timeout exceeded (" ++ cfg.Timeout ++ ")"))
    else if errTxt ≠ "" then
      ("", code, some ("runtime error (exit code " ++ toString code ++ "): " ++ errTxt))
    else
      ("", code, some ("execution failed (exit code " ++ toString code ++ ")"))

/-- `filepath.Join(e.config.CacheDir, e.config.ProblemID, fmt.Sprintf("%d.in", n))`
(src/unnamed/part_002, line 180), for clean non-empty components. -/
def inputFilePath (cfg : Config) (n : Int) : String :=
  cfg.CacheDir ++ "/" ++ cfg.ProblemID ++ "/" ++ toString n ++ ".in"

/-- `filepath.Join(e.config.CacheDir, e.config.ProblemID, fmt.Sprintf("%d.out", n))`
(src/unnamed/part_002, line 181). -/
def expectedFilePath (cfg : Config) (n : Int) : String :=
  cfg.CacheDir ++ "/" ++ cfg.ProblemID ++ "/" ++ toString n ++ ".out"

/-- Embedding of `TestExecutor.Execute` (src/unnamed/part_002, lines
174-203). The child-process outcome is passed in as `o`. -/
def Execute (cfg : Config) (o : ProcOutcome) (tc : TestCase) (testNumber : Int) :
    TestResult :=
  let r0 : TestResult :=
    { TestNumber := testNumber
      Passed := false
      Error := ""
      ActualOutput := ""
      ExpectedOutput := tc.Expected
      InputFile := inputFilePath cfg tc.Number
      ExpectedFile := expectedFilePath cfg tc.Number
      ExitCode := 0 }
  match runGoProgram cfg o with
  | (actualOutput, exitCode, some msg) =>
    { r0 with ActualOutput := actualOutput, ExitCode := exitCode, Error := msg }
  | (actualOutput, exitCode, none) =>
    if compareOutputs actualOutput tc.Expected then
      { r0 with ActualOutput := actualOutput, ExitCode := exitCode, Passed := true }
    else
      { r0 with ActualOutput := actualOutput, ExitCode := exitCode,
                Error := "Output mismatch" }

/-! ## Test case fetcher (src/unnamed/part_002, lines 269-481) -/

/-- One entry of the downloaded zip archive, as the extractor sees it:
its name, whether it is a directory, and its content (`none` models a
failing `file.Open()` / `io.ReadAll`, which the Go code skips with
`continue`). -/
structure ZipEntry where
  name : String
  isDir : Bool
  content : Option String
deriving DecidableEq

/-- A Go `map[int]string`, embedded as an association list where a fresh
insert is prepended and lookup takes the first hit — so a later insert for
the same key shadows (overwrites) the earlier one, as in Go. -/
def GoMap : Type := List (Int × String)

def mapInsert (m : GoMap) (k : Int) (v : String) : GoMap :=
  (k, v) :: m

def mapLookup (m : GoMap) (k : Int) : Option String :=
  ((m : List (Int × String)).find? (fun p => p.1 == k)).map (·.2)

/-- The key set of a Go map, as a duplicate-free list (iteration order of
`for k := range m` is unspecified in Go; theorems quantify over any
permutation of this list). -/
def mapKeys (m : GoMap) : List Int :=
  ((m : List (Int × String)).map (·.1)).dedup

/-- Embedding of `TestCaseFetcher.parseTestNumber` (src/unnamed/part_002,
lines 400-420): strip the suffix, then return the first of
{bare stem, stem minus "test", stem minus "input", stem minus "output"}
that parses via `strconv.Atoi` to a positive number, else 0. -/
def parseTestNumber (filename suffix : String) : Int :=
  let base := goTrimSuffix filename suffix
  let patterns := [base, goTrimPrefix base "test",
                   goTrimPrefix base "input", goTrimPrefix base "output"]
  (patterns.filterMap (fun p => (atoiOpt p).filter (fun n => n > 0))).headD 0

/-- The map-building loop of `extractTestCasesFromZip`
(src/unnamed/part_002, lines 339-376): skip directories and unreadable
entries, route `.in` entries (with positive parsed ordinal) to the input
map and `.out` entries to the output map. -/
def buildMaps (entries : List ZipEntry) : GoMap × GoMap :=
  entries.foldl
    (fun ms e =>
      if e.isDir then ms
      else
        match e.content with
        | none => ms
        | some content =>
          if goHasSuffix e.name ".in" then
            let testNum := parseTestNumber e.name ".in"
            if testNum > 0 then (mapInsert ms.1 testNum content, ms.2) else ms
          else if goHasSuffix e.name ".out" then
            let testNum := parseTestNumber e.name ".out"
            if testNum > 0 then (ms.1, mapInsert ms.2 testNum content) else ms
          else ms)
    ([], [])

/-- The emission loop `for testNum := range inputs` of
`extractTestCasesFromZip` (src/unnamed/part_002, lines 379-387):
one `TestCase` per iterated ordinal that is present in the output map as
well. `order` is the (Go-unspecified) map iteration order. -/
def emitFixtures (order : List Int) (inputs outputs : GoMap) : List TestCase :=
  order.filterMap fun testNum =>
    match mapLookup inputs testNum, mapLookup outputs testNum with
    | some input, some output => some ⟨input, output, testNum⟩
    | _, _ => none

/-- Embedding of `TestCaseFetcher.extractTestCasesFromZip`
(src/unnamed/part_002, lines 332-398), parameterized by the map iteration
order. Zero emitted fixtures is the hard error of line 390. -/
def extractTestCasesFromZip (order : List Int) (entries : List ZipEntry) :
    Except String (List TestCase) :=
  let ms := buildMaps entries
  let testCases := emitFixtures order ms.1 ms.2
  if testCases = [] then .error "no valid test cases found in zip file"
  else .ok testCases

/-- Embedding of `TestCaseFetcher.loadCachedTestCases`
(src/unnamed/part_002, lines 422-456). `listing` is the `os.ReadDir`
result (sorted by filename, per its documented contract); `read` models
`os.ReadFile` relative to the cache directory, `none` being a read error
(skipped with `continue`). -/
def loadCachedTestCases (listing : List String) (read : String → Option String) :
    List TestCase :=
  listing.filterMap fun name =>
    if goHasSuffix name ".in" then
      let number := goTrimSuffix name ".in"
      match read name, read (number ++ ".out") with
      | some input, some output => some ⟨input, output, atoiD number⟩
      | _, _ => none
    else none

/-- Embedding of `TestCaseFetcher.fetchFromCSES` (src/unnamed/part_002,
lines 316-330): `EnsureAuthenticated`, then `DownloadTestCases`, then
extraction; the first two are abstracted as outcome parameters. -/
def fetchFromCSES (auth : Except String Unit)
    (download : Except String (List ZipEntry)) (order : List Int) :
    Except String (List TestCase) :=
  match auth with
  | .error e => .error ("authentication required: " ++ e)
  | .ok _ =>
    match download with
    | .error e => .error ("failed to download test cases: " ++ e)
    | .ok zipEntries => extractTestCasesFromZip order zipEntries

/-- Embedding of `TestCaseFetcher.FetchTestCases` (src/unnamed/part_002,
lines 287-314). `cacheRead` is the `loadCachedTestCases` outcome (`.error`
models a failing `os.ReadDir`). The second component of the result
records whether `fetchFromCSES` — and with it `EnsureAuthenticated` and
the download — was invoked at all. Cache-write failures only warn. -/
def FetchTestCases (cacheRead : Except String (List TestCase))
    (auth : Except String Unit) (download : Except String (List ZipEntry))
    (order : List Int) : Except String (List TestCase) × Bool :=
  match cacheRead with
  | .ok testCases =>
    if testCases.length > 0 then (.ok testCases, false)
    else
      match fetchFromCSES auth download order with
      | .error e => (.error ("failed to fetch from CSES: " ++ e), true)
      | .ok tcs => (.ok tcs, true)
  | .error _ =>
    match fetchFromCSES auth download order with
    | .error e => (.error ("failed to fetch from CSES: " ++ e), true)
    | .ok tcs => (.ok tcs, true)

/-! ## Authentication (src/auth.go) -/

/-- Embedding of `SessionData` (src/auth.go, lines 18-24); the two
`time.Time` stamps become `Int` nanosecond counts. -/
structure SessionData where
  PHPSessionID : String
  CSRFToken : String
  Username : String
  CreatedAt : Int
  LastUsed : Int
deriving DecidableEq

/-- `24 * time.Hour` in nanoseconds (Go `time.Duration` is an `int64`
nanosecond count). -/
def hours24 : Int := 24 * 60 * 60 * 1000000000

/-- Embedding of `CSESAuth.HasValidSession` (src/auth.go, lines 104-116):
`a.sessionData` is passed as an `Option`; `time.Since(CreatedAt)` is
`now - CreatedAt`. -/
def HasValidSession (now : Int) (sessionData : Option SessionData) : Bool :=
  match sessionData with
  | none => false
  | some d =>
    if now - d.CreatedAt > hours24 then false
    else d.PHPSessionID != "" && d.CSRFToken != ""

/-- Which branch `EnsureAuthenticated` resolved to. -/
inductive AuthAction where
  | usedExisting
  | didLogin
deriving DecidableEq

/-- Embedding of `CSESAuth.EnsureAuthenticated` (src/auth.go, lines
326-337): `loadResult` is the `LoadSession` outcome (`none` = load error),
`probeOk` the `TestSession` outcome; any miss falls through to `Login`. -/
def EnsureAuthenticated (now : Int) (loadResult : Option SessionData)
    (probeOk : Bool) : AuthAction :=
  match loadResult with
  | some d =>
    if HasValidSession now (some d) && probeOk then .usedExisting else .didLogin
  | none => .didLogin

/-- The parts of an HTTP response inspected by `validateLoginResponse`:
status code, `Location` header (empty when absent), and the body
(`none` models a failing `io.ReadAll`, which skips the body check). -/
structure HTTPResponse where
  statusCode : Nat
  location : String
  body : Option String
deriving DecidableEq

/-- Embedding of `CSESAuth.validateLoginResponse` (src/auth.go, lines
296-324): `some msg` is the returned error, `none` is success. -/
def validateLoginResponse (resp : HTTPResponse) : Option String :=
  if resp.statusCode ≠ 302 ∧ resp.statusCode ≠ 200 then
    some ("expected status 302 or 200, got " ++ toString resp.statusCode)
  else if resp.location ≠ "" ∧ goContains resp.location "/login" then
    some "failed to login: invalid credentials"
  else
    match resp.body with
    | some html =>
      if goContains html "Invalid username or password" ||
         goContains html "Login failed" || goContains html "error" then
        some "failed to login: invalid credentials"
      else none
    | none => none

/-! ## Test runner (src/unnamed/part_003, lines 84-141) -/

/-- `results[index] = result` write performed by each goroutine of
`runTests`, replayed in an arbitrary completion order: the slice is
pre-sized (`make([]TestResult, len(testCases))`) and each unit writes
only its own `index`. -/
def writeResults (exec : Nat → TestResult) : List Nat → List TestResult → List TestResult
  | [], acc => acc
  | i :: rest, acc => writeResults exec rest (acc.set i (exec i))

/-- Embedding of `TestRunner.runTests` (src/unnamed/part_003, lines
84-141): a pre-sized result slice into which unit `i` writes
`Execute(ctx, executablePath, testCases[i], i+1)` at slot `i`;
`order` is the order in which the concurrent units happen to complete,
and `outcomes i` the child-process outcome of fixture `i`. -/
def runTests (cfg : Config) (outcomes : Nat → ProcOutcome)
    (testCases : List TestCase) (order : List Nat) : List TestResult :=
  writeResults
    (fun i => Execute cfg (outcomes i) (testCases.getD i ⟨"", "", 0⟩) (i + 1))
    order
    (List.replicate testCases.length zeroTestResult)

/-! ## Admission gate (the `semaphore` channel of `runTests`)

The semaphore discipline of src/unnamed/part_003, lines 88 and 113-114,
as a small-step transition system: one status per fixture unit; a unit
may start running only when fewer than `K` units are running (the
buffered channel of capacity `K` has a free slot), and its slot is
released unconditionally when it leaves the running state (the deferred
receive). -/

inductive UStat where
  | pending
  | running
  | done
deriving DecidableEq

/-- Number of currently running units = number of occupied semaphore
slots = number of live child processes. -/
def runningCount (s : List UStat) : Nat :=
  s.countP (· == UStat.running)

/-- One scheduler step of the harness with gate capacity `K`. -/
inductive GateStep (K : Nat) : List UStat → List UStat → Prop
  | start (s : List UStat) (i : Nat) (hp : s.get? i = some .pending)
      (hc : runningCount s < K) : GateStep K s (s.set i .running)
  | finish (s : List UStat) (i : Nat) (hr : s.get? i = some .running) :
      GateStep K s (s.set i .done)

/-- States reachable during a run of `N` fixture units. -/
inductive GateReachable (K N : Nat) : List UStat → Prop
  | init : GateReachable K N (List.replicate N .pending)
  | step {s t : List UStat} (hs : GateReachable K N s) (hst : GateStep K s t) :
      GateReachable K N t

/-! ## Claim C1 -/

/-- Claim C1: for every fixture execution, the Execution Result's pass
flag is true if and only if the child process ran without error and
without timeout AND the normalized actual stdout equals the normalized
expected output; any execution error (timeout, non-zero exit, spawn
failure) or any normalized inequality yields `Passed = false`. -/
theorem execute_passed_iff (cfg : Config) (o : ProcOutcome) (tc : TestCase)
    (n : Int) :
    (Execute cfg o tc n).Passed = true ↔
      ∃ out, o = ProcOutcome.completed out ∧
        normalizeOutput out = normalizeOutput tc.Expected := by
  cases o with
  | completed out =>
    simp only [Execute, runGoProgram]
    by_cases h : normalizeOutput out = normalizeOutput tc.Expected
    · have hb : compareOutputs out tc.Expected = true := by
        rw [compareOutputs, beq_iff_eq]; exact h
      simp [hb, h]
    · have hb : compareOutputs out tc.Expected = false := by
        rw [compareOutputs]; exact beq_eq_false_iff_ne.mpr h
      simp [hb, h]
  | failed code errTxt timedOut =>
    simp only [Execute, runGoProgram]
    by_cases ht : timedOut
    · simp [ht]
    · by_cases he : errTxt = ""
      · simp [ht, he]
      · simp [ht, he]

/-! ## Claim C5 -/

/-- A session whose age is exactly the 24-hour window. -/
def sdBoundary : SessionData :=
  ⟨"sid", "tok", "user", 0, 0⟩

/-- Claim C5 counterexample: the claim says a session aged exactly 24
hours is invalid and forces a re-login; in the code `time.Since(CreatedAt)
> 24*time.Hour` is false at exactly 24 hours, so `HasValidSession` returns
true there and `EnsureAuthenticated` keeps the existing session when the
liveness probe succeeds. -/
theorem hasValidSession_boundary_counterexample :
    HasValidSession hours24 (some sdBoundary) = true ∧
    EnsureAuthenticated hours24 (some sdBoundary) true = AuthAction.usedExisting := by
  constructor <;> rfl

/-- Claim C5 (amended): the freshness boundary is inclusive — a session is
fresh while its age is at most 24 hours, so at exactly 24 hours it is
still valid (given non-empty identifier and token) and
`EnsureAuthenticated` uses it without re-login whenever the liveness probe
succeeds; only an age strictly greater than 24 hours invalidates it. -/
theorem hasValidSession_boundary_inclusive (now : Int) (d : SessionData) :
    (HasValidSession now (some d) = true ↔
      now - d.CreatedAt ≤ hours24 ∧ d.PHPSessionID ≠ "" ∧ d.CSRFToken ≠ "") ∧
    ∀ probeOk, (EnsureAuthenticated now (some d) probeOk = AuthAction.usedExisting ↔
      HasValidSession now (some d) = true ∧ probeOk = true) := by
  constructor
  · simp only [HasValidSession]
    by_cases h : now - d.CreatedAt > hours24
    · simp [h, not_le.mpr h]
    · simp [h, not_lt.mp h, bne_iff_ne]
  · intro probeOk
    cases probeOk <;> by_cases hv : HasValidSession now (some d) = true <;>
      simp [EnsureAuthenticated, hv]

/-! ## Claim C6 -/

/-- Claim C6: whenever the cache read yields at least one complete fixture
pair, `FetchTestCases` returns exactly the cached fixtures and performs no
authentication and no remote call (second component false); only when the
cache read fails or yields zero fixtures does it invoke
`fetchFromCSES` (which starts with `EnsureAuthenticated` and the
download). -/
theorem fetchTestCases_cache_authority (cacheRead : Except String (List TestCase))
    (auth : Except String Unit) (download : Except String (List ZipEntry))
    (order : List Int) :
    (∀ l, cacheRead = .ok l → l ≠ [] →
        FetchTestCases cacheRead auth download order = (.ok l, false)) ∧
    ((FetchTestCases cacheRead auth download order).2 = true ↔
        ¬ ∃ l, cacheRead = .ok l ∧ l ≠ []) := by
  cases cacheRead with
  | ok l =>
    cases l with
    | nil =>
      cases hf : fetchFromCSES auth download order <;>
        simp [FetchTestCases, hf]
    | cons a t =>
      simp [FetchTestCases]
  | error e =>
    cases hf : fetchFromCSES auth download order <;>
      simp [FetchTestCases, hf]

/-- Claim C6 witness: a concrete non-empty cache hit is returned verbatim
with no remote contact, even though the remote download would fail. -/
theorem fetchTestCases_cache_authority_witness :
    FetchTestCases (.ok [⟨"5\n", "5 8 4 2 1\n", 1⟩]) (.ok ()) (.error "offline") []
      = (.ok [⟨"5\n", "5 8 4 2 1\n", 1⟩], false) :=
  (fetchTestCases_cache_authority _ _ _ _).1 _ rfl (List.cons_ne_nil _ _)

/-! ## Claim C10 -/

/-- Claim C10: for every login response with HTTP status 200 and no
`Location` header containing "/login", `validateLoginResponse` returns the
invalid-credentials error if and only if the response body contains at
least one of the substrings "Invalid username or password", "Login
failed", or "error" — so any 200 page containing the bare substring
"error" anywhere is rejected as a failed login. -/
theorem validateLoginResponse_invalid_iff (resp : HTTPResponse) (html : String)
    (h200 : resp.statusCode = 200)
    (hloc : goContains resp.location "/login" = false)
    (hbody : resp.body = some html) :
    validateLoginResponse resp = some "failed to login: invalid credentials" ↔
      (goContains html "Invalid username or password" = true ∨
       goContains html "Login failed" = true ∨
       goContains html "error" = true) := by
  simp only [validateLoginResponse, h200, hloc, hbody]
  norm_num
  by_cases h : goContains html "Invalid username or password" = true ∨
      goContains html "Login failed" = true ∨ goContains html "error" = true
  · rcases h with h | h | h <;> simp [h]
  · push_neg at h
    obtain ⟨h1, h2, h3⟩ := h
    simp [h1, h2, h3]

/-- Claim C10 witness: a 200 response without redirect whose body merely
contains the bare word "error" is rejected as invalid credentials. -/
theorem validateLoginResponse_invalid_witness :
    validateLoginResponse ⟨200, "", some "server error"⟩
      = some "failed to login: invalid credentials" :=
  (validateLoginResponse_invalid_iff ⟨200, "", some "server error"⟩
    "server error" rfl (by decide) rfl).mpr (by decide)

/-! ## Claim C7 -/

theorem countP_set_of_get? (p : UStat → Bool) :
    ∀ (s : List UStat) (i : Nat) (b a : UStat), s.get? i = some b →
      (s.set i a).countP p + (if p b then 1 else 0)
        = s.countP p + (if p a then 1 else 0) := by
  intro s
  induction s with
  | nil => intro i b a h; simp at h
  | cons c t ih =>
    intro i b a h
    cases i with
    | zero =>
      simp only [List.get?] at h
      cases h
      simp only [List.set, List.countP_cons]
      omega
    | succ j =>
      simp only [List.get?] at h
      simp only [List.set, List.countP_cons]
      have := ih j b a h
      omega

/-- Claim C7: during every run with configured parallelism `K`, at no
point do more than `K` child processes for fixture executions exist
simultaneously: each concurrent unit acquires an admission-gate slot
before running and releases it unconditionally on every exit path, so in
every reachable scheduler state the number of running units is at most
`K`. -/
theorem gate_running_le (K N : Nat) (s : List UStat)
    (h : GateReachable K N s) : runningCount s ≤ K := by
  induction h with
  | init =>
    have : runningCount (List.replicate N UStat.pending) = 0 := by
      apply List.countP_eq_zero.mpr
      intro a ha
      rcases List.eq_of_mem_replicate ha with rfl
      decide
    omega
  | step hs hst ih =>
    rename_i s' t'
    cases hst with
    | start i hp hc =>
      have hcount := countP_set_of_get? (· == UStat.running) s' i _ UStat.running hp
      simp only [runningCount] at *
      simp at hcount
      omega
    | finish i hr =>
      have hcount := countP_set_of_get? (· == UStat.running) s' i _ UStat.done hr
      simp only [runningCount] at *
      simp at hcount
      omega

/-- Claim C7 witness: with capacity 1 and two fixtures, the state in which
the first unit has been admitted and is running is reachable, and its
running count respects the bound. -/
theorem gate_running_le_witness :
    runningCount [UStat.running, UStat.pending] ≤ 1 :=
  gate_running_le 1 2 _
    (GateReachable.step GateReachable.init
      (GateStep.start (List.replicate 2 UStat.pending) 0 rfl (by decide)))

/-! ## Claims C3 and C9: the runTests result slice -/

theorem writeResults_length (exec : Nat → TestResult) :
    ∀ (order : List Nat) (acc : List TestResult),
      (writeResults exec order acc).length = acc.length := by
  intro order
  induction order with
  | nil => intro acc; rfl
  | cons j rest ih =>
    intro acc
    simp only [writeResults, ih, List.length_set]

theorem writeResults_getElem?_not_mem (exec : Nat → TestResult) {i : Nat} :
    ∀ (order : List Nat) (acc : List TestResult), i ∉ order →
      (writeResults exec order acc)[i]? = acc[i]? := by
  intro order
  induction order with
  | nil => intro acc _; rfl
  | cons j rest ih =>
    intro acc hni
    have hij : j ≠ i := fun h => hni (h ▸ List.mem_cons_self j rest)
    have hrest : i ∉ rest := fun h => hni (List.mem_cons_of_mem _ h)
    simp only [writeResults, ih _ hrest, List.getElem?_set_ne hij]

theorem writeResults_getElem?_mem (exec : Nat → TestResult) {i : Nat} :
    ∀ (order : List Nat) (acc : List TestResult), i ∈ order → i < acc.length →
      (writeResults exec order acc)[i]? = some (exec i) := by
  intro order
  induction order with
  | nil => intro acc h; simp at h
  | cons j rest ih =>
    intro acc hmem hlen
    by_cases hr : i ∈ rest
    · simp only [writeResults]
      exact ih _ hr (by simpa using hlen)
    · have hij : i = j := by
        rcases List.mem_cons.mp hmem with h | h
        · exact h
        · exact absurd h hr
      subst hij
      simp only [writeResults, writeResults_getElem?_not_mem exec rest _ hr]
      rw [List.getElem?_set_self]
      exact hlen

/-- Claim C3: for every list of `N` fixtures run with any completion
order of the per-fixture units, `runTests` returns a result slice of
length exactly `N` in which slot `i` holds the Execution Result of
fixture `i` (computed as `Execute` of test case `i` with test number
`i+1`), regardless of completion order — every position of the pre-sized
slice is written by exactly the unit with that index. -/
theorem runTests_ordered (cfg : Config) (outcomes : Nat → ProcOutcome)
    (testCases : List TestCase) (order : List Nat)
    (h : order.Perm (List.range testCases.length)) :
    (runTests cfg outcomes testCases order).length = testCases.length ∧
    ∀ i, i < testCases.length →
      (runTests cfg outcomes testCases order)[i]? =
        some (Execute cfg (outcomes i) (testCases.getD i ⟨"", "", 0⟩) (i + 1)) := by
  constructor
  · simp [runTests, writeResults_length]
  · intro i hi
    have hmem : i ∈ order := h.mem_iff.mpr (List.mem_range.mpr hi)
    exact writeResults_getElem?_mem _ order _ hmem (by simpa using hi)

/-- Claim C3 witness: two fixtures whose units complete in reversed
order still fill the result slice in fixture order. -/
theorem runTests_ordered_witness :
    (runTests defaultConfig (fun _ => ProcOutcome.completed "ok")
        [⟨"a", "ok", 5⟩, ⟨"b", "ok", 7⟩] [1, 0]).length = 2 ∧
    ∀ i, i < 2 →
      (runTests defaultConfig (fun _ => ProcOutcome.completed "ok")
          [⟨"a", "ok", 5⟩, ⟨"b", "ok", 7⟩] [1, 0])[i]? =
        some (Execute defaultConfig (ProcOutcome.completed "ok")
          ([(⟨"a", "ok", 5⟩ : TestCase), ⟨"b", "ok", 7⟩].getD i ⟨"", "", 0⟩) (i + 1)) :=
  runTests_ordered defaultConfig (fun _ => ProcOutcome.completed "ok")
    [⟨"a", "ok", 5⟩, ⟨"b", "ok", 7⟩] [1, 0] (by decide)

theorem Execute_TestNumber (cfg : Config) (o : ProcOutcome) (tc : TestCase)
    (n : Int) : (Execute cfg o tc n).TestNumber = n := by
  cases o with
  | completed out =>
    simp only [Execute, runGoProgram]
    by_cases h : compareOutputs out tc.Expected <;> simp [h]
  | failed code errTxt timedOut =>
    simp only [Execute, runGoProgram]
    by_cases ht : timedOut
    · simp [ht]
    · by_cases he : errTxt = "" <;> simp [ht, he]

theorem Execute_InputFile (cfg : Config) (o : ProcOutcome) (tc : TestCase)
    (n : Int) : (Execute cfg o tc n).InputFile = inputFilePath cfg tc.Number := by
  cases o with
  | completed out =>
    simp only [Execute, runGoProgram]
    by_cases h : compareOutputs out tc.Expected <;> simp [h]
  | failed code errTxt timedOut =>
    simp only [Execute, runGoProgram]
    by_cases ht : timedOut
    · simp [ht]
    · by_cases he : errTxt = "" <;> simp [ht, he]

theorem Execute_ExpectedFile (cfg : Config) (o : ProcOutcome) (tc : TestCase)
    (n : Int) : (Execute cfg o tc n).ExpectedFile = expectedFilePath cfg tc.Number := by
  cases o with
  | completed out =>
    simp only [Execute, runGoProgram]
    by_cases h : compareOutputs out tc.Expected <;> simp [h]
  | failed code errTxt timedOut =>
    simp only [Execute, runGoProgram]
    by_cases ht : timedOut
    · simp [ht]
    · by_cases he : errTxt = "" <;> simp [ht, he]

/-- Claim C9: the `TestNumber` recorded in each Execution Result is the
fixture's 1-based position in the executed sequence (`index+1`), while
the `InputFile` and `ExpectedFile` paths in the same result are derived
from the fixture's parsed archive ordinal (`TestCase.Number`); whenever a
fixture's ordinal differs from its 1-based position, the reported test
number differs from the ordinal embedded in the reported file names. -/
theorem runTests_numbering (cfg : Config) (outcomes : Nat → ProcOutcome)
    (testCases : List TestCase) (order : List Nat)
    (h : order.Perm (List.range testCases.length)) :
    ∀ i, i < testCases.length →
      ∃ r, (runTests cfg outcomes testCases order)[i]? = some r ∧
        r.TestNumber = (i : Int) + 1 ∧
        r.InputFile = inputFilePath cfg (testCases.getD i ⟨"", "", 0⟩).Number ∧
        r.ExpectedFile = expectedFilePath cfg (testCases.getD i ⟨"", "", 0⟩).Number ∧
        ((testCases.getD i ⟨"", "", 0⟩).Number ≠ (i : Int) + 1 →
          r.TestNumber ≠ (testCases.getD i ⟨"", "", 0⟩).Number) := by
  intro i hi
  have hmem : i ∈ order := h.mem_iff.mpr (List.mem_range.mpr hi)
  refine ⟨_, writeResults_getElem?_mem _ order _ hmem (by simpa using hi), ?_, ?_, ?_, ?_⟩
  · rw [Execute_TestNumber]
  · exact Execute_InputFile _ _ _ _
  · exact Execute_ExpectedFile _ _ _ _
  · intro hne
    rw [Execute_TestNumber]
    omega

/-- Claim C9 witness: a fixture list with ordinals 5 and 7 (not 1..2)
gets reported test numbers 1 and 2, which differ from the ordinals in the
reported file names. -/
theorem runTests_numbering_witness :
    ∃ r, (runTests defaultConfig (fun _ => ProcOutcome.completed "ok")
        [⟨"a", "ok", 5⟩, ⟨"b", "ok", 7⟩] [1, 0])[0]? = some r ∧
      r.TestNumber = (0 : Int) + 1 ∧
      r.InputFile = inputFilePath defaultConfig
        (([(⟨"a", "ok", 5⟩ : TestCase), ⟨"b", "ok", 7⟩].getD 0 ⟨"", "", 0⟩)).Number ∧
      r.ExpectedFile = expectedFilePath defaultConfig
        (([(⟨"a", "ok", 5⟩ : TestCase), ⟨"b", "ok", 7⟩].getD 0 ⟨"", "", 0⟩)).Number ∧
      (([(⟨"a", "ok", 5⟩ : TestCase), ⟨"b", "ok", 7⟩].getD 0 ⟨"", "", 0⟩).Number ≠ (0 : Int) + 1 →
        r.TestNumber ≠ ([(⟨"a", "ok", 5⟩ : TestCase), ⟨"b", "ok", 7⟩].getD 0 ⟨"", "", 0⟩).Number) :=
  runTests_numbering defaultConfig (fun _ => ProcOutcome.completed "ok")
    [⟨"a", "ok", 5⟩, ⟨"b", "ok", 7⟩] [1, 0] (by decide) 0 (by decide)

/-! ## Claim C2 -/

theorem mapKeys_nodup (m : GoMap) : (mapKeys m).Nodup :=
  List.nodup_dedup _

theorem mem_mapKeys (m : GoMap) (k : Int) :
    k ∈ mapKeys m ↔ (mapLookup m k).isSome := by
  simp only [mapKeys, List.mem_dedup, List.mem_map, mapLookup,
    Option.isSome_map', List.find?_isSome, beq_iff_eq]

theorem emit_numbers (ins outs : GoMap) :
    ∀ order : List Int,
      (emitFixtures order ins outs).map (·.Number)
        = order.filter (fun k => (mapLookup ins k).isSome && (mapLookup outs k).isSome) := by
  intro order
  induction order with
  | nil => rfl
  | cons j rest ih =>
    cases hin : mapLookup ins j with
    | none => simp [emitFixtures, List.filterMap_cons, List.filter_cons, hin] at ih ⊢; exact ih
    | some vin =>
      cases hout : mapLookup outs j with
      | none => simp [emitFixtures, List.filterMap_cons, List.filter_cons, hin, hout] at ih ⊢; exact ih
      | some vout =>
        simp [emitFixtures, List.filterMap_cons, List.filter_cons, hin, hout] at ih ⊢
        exact ih

/-- Claim C2: parsing emits exactly one Fixture per ordinal present in
both the input map and the output map built from the archive entries
(duplicate-free emitted ordinals, with membership exactly the ordinals
present in both maps — any ordinal present in only one map is silently
dropped), and an archive from which zero matched fixtures are extracted
is the hard fetch error, for any map iteration order. -/
theorem extract_matched_pairs (entries : List ZipEntry) (order : List Int)
    (h : order.Perm (mapKeys (buildMaps entries).1)) :
    ((emitFixtures order (buildMaps entries).1 (buildMaps entries).2).map (·.Number)).Nodup ∧
    (∀ k : Int,
      k ∈ (emitFixtures order (buildMaps entries).1 (buildMaps entries).2).map (·.Number) ↔
        ((mapLookup (buildMaps entries).1 k).isSome ∧
         (mapLookup (buildMaps entries).2 k).isSome)) ∧
    (extractTestCasesFromZip order entries
        = .error "no valid test cases found in zip file" ↔
      ∀ k : Int, ¬((mapLookup (buildMaps entries).1 k).isSome ∧
        (mapLookup (buildMaps entries).2 k).isSome)) := by
  have hnd : order.Nodup := h.nodup_iff.mpr (mapKeys_nodup _)
  have hnum := emit_numbers (buildMaps entries).1 (buildMaps entries).2 order
  refine ⟨?_, ?_, ?_⟩
  · rw [hnum]; exact hnd.filter _
  · intro k
    rw [hnum, List.mem_filter, h.mem_iff, mem_mapKeys, Bool.and_eq_true]
    constructor
    · rintro ⟨_, h1, h2⟩; exact ⟨h1, h2⟩
    · rintro ⟨h1, h2⟩; exact ⟨h1, h1, h2⟩
  · have hempty : emitFixtures order (buildMaps entries).1 (buildMaps entries).2 = [] ↔
        ∀ k : Int, ¬((mapLookup (buildMaps entries).1 k).isSome ∧
          (mapLookup (buildMaps entries).2 k).isSome) := by
      rw [← List.map_eq_nil_iff (f := (·.Number)), hnum, List.filter_eq_nil_iff]
      constructor
      · intro hall k ⟨h1, h2⟩
        exact hall k (h.mem_iff.mpr ((mem_mapKeys _ _).mpr h1))
          (by simp [h1, h2])
      · intro hnone k _ hb
        rcases Bool.and_eq_true _ _ |>.mp hb with ⟨h1, h2⟩
        exact hnone k ⟨h1, h2⟩
    rw [extractTestCasesFromZip]
    constructor
    · intro he
      by_cases hz : emitFixtures order (buildMaps entries).1 (buildMaps entries).2 = []
      · exact hempty.mp hz
      · simp only [hz, if_neg hz] at he
        cases he
    · intro hk
      simp [hempty.mpr hk]

/-- The spec's own example archive: inputs for ordinals 1, 2 and 3 but
outputs only for 1 and 2. -/
def exampleEntries : List ZipEntry :=
  [⟨"1.in", false, some "i1"⟩, ⟨"2.in", false, some "i2"⟩,
   ⟨"3.in", false, some "i3"⟩, ⟨"1.out", false, some "o1"⟩,
   ⟨"2.out", false, some "o2"⟩]

/-- Claim C2 witness: on the archive with inputs {1,2,3} and outputs
{1,2}, exactly 2 fixtures are produced, no error. -/
theorem extract_matched_pairs_witness :
    (((emitFixtures [3, 2, 1] (buildMaps exampleEntries).1 (buildMaps exampleEntries).2).map
        (·.Number)).Nodup ∧
      (∀ k : Int,
        k ∈ (emitFixtures [3, 2, 1] (buildMaps exampleEntries).1
            (buildMaps exampleEntries).2).map (·.Number) ↔
          ((mapLookup (buildMaps exampleEntries).1 k).isSome ∧
           (mapLookup (buildMaps exampleEntries).2 k).isSome)) ∧
      (extractTestCasesFromZip [3, 2, 1] exampleEntries
          = .error "no valid test cases found in zip file" ↔
        ∀ k : Int, ¬((mapLookup (buildMaps exampleEntries).1 k).isSome ∧
          (mapLookup (buildMaps exampleEntries).2 k).isSome))) ∧
    (emitFixtures [3, 2, 1] (buildMaps exampleEntries).1
        (buildMaps exampleEntries).2).length = 2 :=
  ⟨extract_matched_pairs exampleEntries [3, 2, 1] (by decide), by decide⟩

/-! ## Claim C4 -/

/-- The ordinals of the matched `.in`/`.out` pairs of a cache directory
listing, in listing order. -/
def matchedOrdinals (listing : List String) (read : String → Option String) :
    List Int :=
  listing.filterMap fun name =>
    if goHasSuffix name ".in" then
      match read name, read (goTrimSuffix name ".in" ++ ".out") with
      | some _, some _ => some (atoiD (goTrimSuffix name ".in"))
      | _, _ => none
    else none

theorem loadCached_numbers (read : String → Option String) :
    ∀ listing : List String,
      (loadCachedTestCases listing read).map (·.Number)
        = matchedOrdinals listing read := by
  intro listing
  induction listing with
  | nil => rfl
  | cons name rest ih =>
    by_cases hin : goHasSuffix name ".in"
    · cases h1 : read name with
      | none =>
        simp only [loadCachedTestCases, matchedOrdinals, List.filterMap_cons, hin,
          if_true, h1] at ih ⊢
        exact ih
      | some input =>
        cases h2 : read (goTrimSuffix name ".in" ++ ".out") with
        | none =>
          simp only [loadCachedTestCases, matchedOrdinals, List.filterMap_cons, hin,
            if_true, h1, h2] at ih ⊢
          exact ih
        | some output =>
          simp only [loadCachedTestCases, matchedOrdinals, List.filterMap_cons, hin,
            if_true, h1, h2, List.map_cons] at ih ⊢
          exact congrArg _ ih
    · simp only [loadCachedTestCases, matchedOrdinals, List.filterMap_cons,
        hin, if_false, Bool.false_eq_true] at ih ⊢
      exact ih

/-- The `os.ReadDir` listing (sorted by filename, per its contract) of a
cache directory holding fixtures 1, 2 and 10: lexicographically, `10.in`
sorts before `2.in`. -/
def cacheListingTen : List String :=
  ["1.in", "1.out", "10.in", "10.out", "2.in", "2.out"]

def cacheReadTen : String → Option String :=
  fun name => if cacheListingTen.contains name then some name else none

/-- Claim C4 counterexample: the claim says fixtures come back in
ascending ordinal order on the cache-hit path; on the cached directory
{1, 2, 10} — whose filename-sorted listing is a faithful `os.ReadDir`
result — `loadCachedTestCases` returns ordinals [1, 10, 2], which is not
ascending. -/
theorem loadCached_order_counterexample :
    ((loadCachedTestCases cacheListingTen cacheReadTen).map (·.Number)) = [1, 10, 2] ∧
    ¬ List.Sorted (· ≤ ·)
        ((loadCachedTestCases cacheListingTen cacheReadTen).map (·.Number)) := by
  exact ⟨by decide, by decide⟩

/-- Claim C4 (amended): `FetchTestCases` performs no ordinal sort on
either path. On the cache-hit path the fixtures come back in
directory-listing order (lexicographic by filename), so the ordinal
sequence equals `matchedOrdinals` of the listing and is ascending only
when that listing-order ordinal sequence happens to be ascending (e.g.
all ordinals single-digit); on the remote-fetch path the order is the
unspecified Go map iteration order. -/
theorem loadCached_listing_order (listing : List String)
    (read : String → Option String) :
    ((loadCachedTestCases listing read).map (·.Number)
        = matchedOrdinals listing read) ∧
    (List.Sorted (· ≤ ·) (matchedOrdinals listing read) →
      List.Sorted (· ≤ ·) ((loadCachedTestCases listing read).map (·.Number))) := by
  refine ⟨loadCached_numbers read listing, ?_⟩
  intro hs
  rw [loadCached_numbers read listing]
  exact hs

def cacheListingSmall : List String :=
  ["1.in", "1.out", "2.in", "2.out"]

def cacheReadSmall : String → Option String :=
  fun name => if cacheListingSmall.contains name then some name else none

/-- Claim C4 (amended) witness: with single-digit ordinals the listing
order coincides with ascending ordinal order and the result is sorted. -/
theorem loadCached_listing_order_witness :
    List.Sorted (· ≤ ·)
      ((loadCachedTestCases cacheListingSmall cacheReadSmall).map (·.Number)) :=
  (loadCached_listing_order cacheListingSmall cacheReadSmall).2 (by decide)

/-! ## Claim C8: idempotence of output normalization

The proof characterizes the strings fixed by the line-wise right-trim
(`cleanB`: no trailing `" \t\r"` character at end of text or before a
newline), shows `rtrimLines` always produces such strings and is the
identity on them, shows `trimSpaceL` preserves the property and is
idempotent itself, and composes. -/

/-- `headBad r` holds when a cutset character sitting immediately before
`r` would be trailing in its line: `r` is empty or starts a new line. -/
def headBad : List Char → Bool
  | [] => true
  | d :: _ => d == '\n'

/-- `cleanB l`: no `" \t\r"` character of `l` is at the end of its line
(i.e. every cutset character is immediately followed by a non-newline
character). These are exactly the fixed points of `rtrimLines`. -/
def cleanB : List Char → Bool
  | [] => true
  | c :: r => (!isCut c || !headBad r) && cleanB r

theorem splitNl_ne_nil : ∀ l : List Char, splitNl l ≠ [] := by
  intro l
  cases l with
  | nil => simp [splitNl]
  | cons c rest =>
    by_cases hc : c = '\n' <;> simp [splitNl, hc]

theorem nl_not_mem_splitNl :
    ∀ l : List Char, ∀ piece ∈ splitNl l, '\n' ∉ piece := by
  intro l
  induction l with
  | nil =>
    intro piece hp
    simp only [splitNl, List.mem_singleton] at hp
    subst hp
    exact List.not_mem_nil _
  | cons c rest ih =>
    intro piece hp
    obtain ⟨l0, ls, hs⟩ := List.exists_cons_of_ne_nil (splitNl_ne_nil rest)
    by_cases hc : c = '\n'
    · rw [splitNl, if_pos hc] at hp
      rcases List.mem_cons.mp hp with rfl | hmem
      · exact List.not_mem_nil _
      · exact ih piece hmem
    · rw [splitNl, if_neg hc, hs] at hp
      rcases List.mem_cons.mp hp with rfl | hmem
      · intro hn
        rcases List.mem_cons.mp hn with he | hmem0
        · exact hc he.symm
        · exact ih l0 (hs ▸ List.mem_cons_self l0 ls)
            (by simpa using hmem0)
      · exact ih piece (hs ▸ List.mem_cons_of_mem l0 (by simpa using hmem))

theorem rtrimBy_head? (p : Char → Bool) :
    ∀ l : List Char, rtrimBy p l ≠ [] → (rtrimBy p l).head? = l.head? := by
  intro l
  induction l with
  | nil => intro h; exact absurd rfl h
  | cons c r ih =>
    intro h
    by_cases h0 : rtrimBy p r = []
    · by_cases hp : p c
      · exact absurd (by simp [rtrimBy, h0, hp]) h
      · simp [rtrimBy, h0, hp]
    · simp [rtrimBy, h0]

theorem joinNl_cons_cons (c : Char) (l0 : List Char) (ms : List (List Char)) :
    joinNl ((c :: l0) :: ms) = c :: joinNl (l0 :: ms) := by
  cases ms <;> rfl

/-- How the line-wise right-trim acts on one leading character: a newline
is kept; a cutset character is dropped exactly when everything after it up
to its line end was dropped too (the remainder is empty or starts with a
newline); any other character is kept. -/
theorem rtrimLines_cons (c : Char) (l : List Char) :
    rtrimLines (c :: l) =
      if c = '\n' then '\n' :: rtrimLines l
      else if isCut c && headBad (rtrimLines l) then rtrimLines l
      else c :: rtrimLines l := by
  obtain ⟨l0, ls, hs⟩ := List.exists_cons_of_ne_nil (splitNl_ne_nil l)
  by_cases hc : c = '\n'
  · rw [if_pos hc, hc]
    show joinNl ((splitNl ('\n' :: l)).map (rtrimBy isCut)) = _
    rw [show splitNl ('\n' :: l) = [] :: splitNl l from by simp [splitNl]]
    rw [hs, List.map_cons, List.map_cons]
    show '\n' :: joinNl ((rtrimBy isCut l0) :: ls.map (rtrimBy isCut)) = _
    rw [rtrimLines, hs, List.map_cons]
  · rw [if_neg hc]
    have hsplit : splitNl (c :: l) = (c :: l0) :: ls := by
      simp [splitNl, hc, hs]
    have hr : rtrimLines l = joinNl (rtrimBy isCut l0 :: ls.map (rtrimBy isCut)) := by
      rw [rtrimLines, hs, List.map_cons]
    show joinNl ((splitNl (c :: l)).map (rtrimBy isCut)) = _
    rw [hsplit, List.map_cons]
    by_cases h0 : rtrimBy isCut l0 = []
    · have hbad : headBad (rtrimLines l) = true := by
        rw [hr, h0]
        cases ls.map (rtrimBy isCut) <;> rfl
      by_cases hcut : isCut c
      · rw [show rtrimBy isCut (c :: l0) = [] from by simp [rtrimBy, h0, hcut]]
        rw [if_pos (by simp [hcut, hbad])]
        rw [hr, h0]
      · rw [show rtrimBy isCut (c :: l0) = [c] from by simp [rtrimBy, h0, hcut]]
        rw [if_neg (by simp [hcut])]
        rw [hr, h0]
        cases ls.map (rtrimBy isCut) <;> rfl
    · obtain ⟨a, t, h0'⟩ := List.exists_cons_of_ne_nil h0
      have hhead : (rtrimLines l).head? = some a := by
        rw [hr, h0']
        cases ls.map (rtrimBy isCut) <;> rfl
      have ha : a ∈ l0 := by
        have hh := rtrimBy_head? isCut l0 h0
        rw [h0'] at hh
        cases hl0 : l0 with
        | nil => rw [hl0] at hh; cases hh
        | cons b t' =>
          rw [hl0] at hh
          injection hh.symm with hb
          rw [hb]
          exact List.mem_cons_self a t'
      have hnl : a ≠ '\n' := fun he =>
        nl_not_mem_splitNl l l0 (hs ▸ List.mem_cons_self l0 ls) (he ▸ ha)
      have hbad : headBad (rtrimLines l) = false := by
        cases hrt : rtrimLines l with
        | nil => rw [hrt] at hhead; cases hhead
        | cons x xs =>
          rw [hrt] at hhead
          injection hhead with hx
          rw [headBad, hx]
          exact beq_eq_false_iff_ne.mpr hnl
      rw [show rtrimBy isCut (c :: l0) = c :: rtrimBy isCut l0 from by
        simp [rtrimBy, h0]]
      rw [if_neg (by simp [hbad])]
      rw [hr]
      exact joinNl_cons_cons c (rtrimBy isCut l0) (ls.map (rtrimBy isCut))

theorem cleanB_rtrimLines : ∀ l : List Char, cleanB (rtrimLines l) = true := by
  intro l
  induction l with
  | nil => rfl
  | cons c l ih =>
    rw [rtrimLines_cons]
    by_cases hc : c = '\n'
    · rw [if_pos hc]
      have hn : isCut '\n' = false := rfl
      simp [cleanB, hn, ih]
    · rw [if_neg hc]
      by_cases hcb : (isCut c && headBad (rtrimLines l)) = true
      · rw [if_pos hcb]; exact ih
      · rw [if_neg hcb]
        simp only [cleanB, ih, Bool.and_true]
        cases hcut : isCut c with
        | false => simp
        | true =>
          cases hbd : headBad (rtrimLines l) with
          | false => simp [hbd]
          | true => exact absurd (by rw [hcut, hbd]; rfl) hcb

theorem rtrimLines_of_cleanB : ∀ l : List Char, cleanB l = true → rtrimLines l = l := by
  intro l
  induction l with
  | nil => intro _; rfl
  | cons c r ih =>
    intro h
    simp only [cleanB, Bool.and_eq_true] at h
    obtain ⟨h1, h2⟩ := h
    rw [rtrimLines_cons, ih h2]
    by_cases hc : c = '\n'
    · rw [if_pos hc, hc]
    · rw [if_neg hc]
      have hfalse : (isCut c && headBad r) = false := by
        cases hcut : isCut c with
        | false => simp
        | true =>
          cases hbd : headBad r with
          | false => simp [hbd]
          | true => rw [hcut, hbd] at h1; simp at h1
      rw [if_neg (by simp [hfalse])]

theorem headBad_head? (l l' : List Char) (h : l.head? = l'.head?) :
    headBad l = headBad l' := by
  cases l with
  | nil =>
    cases l' with
    | nil => rfl
    | cons d t => simp at h
  | cons c t =>
    cases l' with
    | nil => simp at h
    | cons d t' =>
      simp only [List.head?_cons, Option.some.injEq] at h
      rw [headBad, headBad, h]

theorem cleanB_tail {c : Char} {r : List Char} (h : cleanB (c :: r) = true) :
    cleanB r = true := by
  simp only [cleanB, Bool.and_eq_true] at h
  exact h.2

theorem cleanB_dropWhile (p : Char → Bool) :
    ∀ l : List Char, cleanB l = true → cleanB (l.dropWhile p) = true := by
  intro l
  induction l with
  | nil => intro h; exact h
  | cons c r ih =>
    intro h
    by_cases hp : p c
    · rw [List.dropWhile_cons_of_pos hp]
      exact ih (cleanB_tail h)
    · rw [List.dropWhile_cons_of_neg hp]
      exact h

theorem cleanB_rtrimBy_space :
    ∀ l : List Char, cleanB l = true → cleanB (rtrimBy goIsSpace l) = true := by
  intro l
  induction l with
  | nil => intro h; exact h
  | cons c r ih =>
    intro h
    simp only [cleanB, Bool.and_eq_true, Bool.or_eq_true, Bool.not_eq_true'] at h
    obtain ⟨h1, h2⟩ := h
    by_cases h0 : rtrimBy goIsSpace r = []
    · by_cases hp : goIsSpace c
      · rw [show rtrimBy goIsSpace (c :: r) = [] from by simp [rtrimBy, h0, hp]]
        rfl
      · rw [show rtrimBy goIsSpace (c :: r) = [c] from by simp [rtrimBy, h0, hp]]
        have hcut : isCut c = false := by
          cases hcc : isCut c with
          | false => rfl
          | true => exact absurd (isCut_goIsSpace hcc) hp
        simp [cleanB, headBad, hcut]
    · rw [show rtrimBy goIsSpace (c :: r) = c :: rtrimBy goIsSpace r from by
        simp [rtrimBy, h0]]
      simp only [cleanB, Bool.and_eq_true, Bool.or_eq_true, Bool.not_eq_true']
      refine ⟨?_, ih h2⟩
      rcases h1 with h1 | h1
      · exact Or.inl h1
      · right
        rw [headBad_head? (rtrimBy goIsSpace r) r (rtrimBy_head? goIsSpace r h0)]
        exact h1

theorem cleanB_trimSpace (l : List Char) (h : cleanB l = true) :
    cleanB (trimSpaceL l) = true :=
  cleanB_rtrimBy_space _ (cleanB_dropWhile goIsSpace l h)

theorem rtrimBy_rtrimBy (p : Char → Bool) :
    ∀ l : List Char, rtrimBy p (rtrimBy p l) = rtrimBy p l := by
  intro l
  induction l with
  | nil => rfl
  | cons c r ih =>
    by_cases h0 : rtrimBy p r = []
    · by_cases hp : p c
      · simp [rtrimBy, h0, hp]
      · simp [rtrimBy, h0, hp]
    · rw [show rtrimBy p (c :: r) = c :: rtrimBy p r from by simp [rtrimBy, h0]]
      simp [rtrimBy, ih, h0]

theorem dropWhile_rtrimBy_dropWhile (p : Char → Bool) (l : List Char) :
    (rtrimBy p (l.dropWhile p)).dropWhile p = rtrimBy p (l.dropWhile p) := by
  cases h0 : rtrimBy p (l.dropWhile p) with
  | nil => rfl
  | cons x xs =>
    have hh := rtrimBy_head? p (l.dropWhile p) (by simp [h0])
    rw [h0] at hh
    have hx : p x = false := by
      cases hd : l.dropWhile p with
      | nil => rw [hd] at hh; cases hh
      | cons y ys =>
        rw [hd] at hh
        injection hh with hxy
        have hny := List.head?_dropWhile_not p l
        rw [hd] at hny
        simp only [List.head?_cons] at hny
        rw [hxy]
        exact hny
    rw [List.dropWhile_cons_of_neg (by simp [hx])]

theorem trimSpaceL_trimSpaceL (l : List Char) :
    trimSpaceL (trimSpaceL l) = trimSpaceL l := by
  show rtrimBy goIsSpace ((rtrimBy goIsSpace (l.dropWhile goIsSpace)).dropWhile goIsSpace)
      = rtrimBy goIsSpace (l.dropWhile goIsSpace)
  rw [dropWhile_rtrimBy_dropWhile, rtrimBy_rtrimBy]

theorem normalizeL_idem (l : List Char) :
    normalizeL (normalizeL l) = normalizeL l := by
  show trimSpaceL (rtrimLines (trimSpaceL (rtrimLines l))) = trimSpaceL (rtrimLines l)
  rw [rtrimLines_of_cleanB _ (cleanB_trimSpace _ (cleanB_rtrimLines l)),
    trimSpaceL_trimSpaceL]

/-- Claim C8: output normalization is idempotent — for every text `x`,
`normalize(normalize(x)) == normalize(x)`, where `normalize` splits into
lines, right-trims trailing spaces/tabs/CR from each line, rejoins with
newlines, and trims leading/trailing whitespace of the whole text. -/
theorem normalizeOutput_idempotent (s : String) :
    normalizeOutput (normalizeOutput s) = normalizeOutput s := by
  show String.mk (normalizeL (String.mk (normalizeL s.data)).data)
      = String.mk (normalizeL s.data)
  rw [show (String.mk (normalizeL s.data)).data = normalizeL s.data from rfl,
    normalizeL_idem]

end CsesGoRunner
